import Mathlib

/-!
Verification of the order-rebalancing engine in `execute_orders.py`
(Pelosi-Tracker repository).

Embedding conventions:
* Python floats are modelled as exact rationals (`ℚ`); the spec's numerical
  claims are stated over exact arithmetic rounding.
* Python dicts are modelled as association lists with insertion-order
  semantics: `dictGet` returns the value of the first matching key,
  `dictSet` overwrites the existing entry in place or appends a new one.
* Python `round(x, d)` is round-half-to-even at `d` decimal places,
  modelled by `pyRound` over `ℚ`.
* `calculate_orders` iterates over `set(current) | set(target)`; the Python
  set iteration order is unspecified, so the model fixes one admissible
  order (current keys first, then fresh target keys, deduplicated).  All
  properties proved about the produced list are insensitive to that choice.
-/

/-- A `{'value': ..., 'qty': ...}` entry of the current-positions dict. -/
structure PositionData where
  value : ℚ
  qty : ℚ
deriving DecidableEq, Repr

/-- Order side, `'buy'` or `'sell'` in the Python dicts. -/
inductive Side where
  | buy : Side
  | sell : Side
deriving DecidableEq, Repr

/-- An order dict produced by `calculate_orders`: symbol, side, and the
optional `qty` / `notional` / `current_position_value` keys. -/
structure Order where
  symbol : String
  side : Side
  qty : Option ℚ := none
  notional : Option ℚ := none
  current_position_value : Option ℚ := none
deriving DecidableEq, Repr

/-- Python `d.get(k)` on an association list: value of the first matching key. -/
def dictGet {α : Type} : List (String × α) → String → Option α
  | [], _ => none
  | (k, v) :: rest, s => if k = s then some v else dictGet rest s

/-- Python `d[k] = v` on an association list: overwrite the existing entry in
place, or append a new entry at the end (Python dict insertion order). -/
def dictSet {α : Type} : List (String × α) → String → α → List (String × α)
  | [], k, v => [(k, v)]
  | (k', v') :: rest, k, v =>
      if k' = k then (k', v) :: rest else (k', v') :: dictSet rest k v

/-- Round to the nearest integer, ties to even: Python 3 `round(x)`. -/
def roundHalfEven (x : ℚ) : ℤ :=
  if x - ⌊x⌋ < 1 / 2 then ⌊x⌋
  else if 1 / 2 < x - ⌊x⌋ then ⌊x⌋ + 1
  else if ⌊x⌋ % 2 = 0 then ⌊x⌋ else ⌊x⌋ + 1

/-- Python 3 `round(x, d)` over exact rationals. -/
def pyRound (x : ℚ) (d : ℕ) : ℚ :=
  (roundHalfEven (x * 10 ^ d) : ℚ) / 10 ^ d

/-- The `SYMBOL_NORMALIZATION` table from the source. -/
def SYMBOL_NORMALIZATION : List (String × String) :=
  [("BTCUSD", "BTC/USD"), ("BTC-USD", "BTC/USD"),
   ("SOLUSD", "SOL/USD"), ("SOL-USD", "SOL/USD")]

/-- The `CRYPTO_TICKER_MAPPING` table from the source. -/
def CRYPTO_TICKER_MAPPING : List (String × String) :=
  [("BTC-USD", "BTC/USD"), ("SOL-USD", "SOL/USD")]

/-- Embedding of `normalize_symbol`: canonicalize via `SYMBOL_NORMALIZATION`, keyed on
the upper-cased symbol, falling back to the symbol itself. -/
def normalize_symbol (symbol : String) : String :=
  (dictGet SYMBOL_NORMALIZATION symbol.toUpper).getD symbol

/-- A raw broker position as returned by the trading client. -/
structure RawPosition where
  symbol : String
  market_value : ℚ
  qty : ℚ
deriving DecidableEq, Repr

/-- One iteration of the `get_current_positions` loop: add the raw
position into the accumulated dict, keyed by its normalized symbol
(add-in-place when the key exists, insert otherwise). -/
def gcpStep (normalized_positions : List (String × PositionData))
    (pos : RawPosition) : List (String × PositionData) :=
  let normalized_symbol := normalize_symbol pos.symbol
  match dictGet normalized_positions normalized_symbol with
  | some _ =>
      normalized_positions.map (fun p =>
        if p.1 = normalized_symbol then
          (p.1, ⟨p.2.value + pos.market_value, p.2.qty + pos.qty⟩)
        else p)
  | none =>
      normalized_positions ++ [(normalized_symbol, ⟨pos.market_value, pos.qty⟩)]

/-- Embedding of `get_current_positions`, with the broker response abstracted to the
list of raw positions it returns: aggregate value and qty by normalized
symbol, in encounter order. -/
def get_current_positions (positions : List RawPosition) :
    List (String × PositionData) :=
  positions.foldl gcpStep []

/-- The expression `crypto_mapping.get(asset, asset)`: the trading symbol used for an
allocation ticker. -/
def remapSymbol (crypto_mapping : List (String × String))
    (asset : String) : String :=
  (dictGet crypto_mapping asset).getD asset

/-- One iteration of the `calculate_target_positions` loop:
`targets[symbol] = (pct / 100.0) * equity`. -/
def ctpStep (account_equity : ℚ) (crypto_mapping : List (String × String))
    (targets : List (String × ℚ)) (ap : String × ℚ) : List (String × ℚ) :=
  dictSet targets (remapSymbol crypto_mapping ap.1)
    ((ap.2 / 100) * account_equity)

/-- Embedding of `calculate_target_positions`: convert an allocation mapping and the
account equity into target dollar values, remapping crypto tickers. -/
def calculate_target_positions (allocations : List (String × ℚ))
    (account_equity : ℚ) (crypto_mapping : List (String × String)) :
    List (String × ℚ) :=
  allocations.foldl (ctpStep account_equity crypto_mapping) []

/-- The body of the `for symbol in all_symbols` loop of `calculate_orders`:
the order appended for `symbol`, or `none` when the iteration appends
nothing (`continue`, or a sell quantity that is not positive). -/
def orderForSymbol (current_positions : List (String × PositionData))
    (target_positions : List (String × ℚ)) (min_order_size : ℚ)
    (symbol : String) : Option Order :=
  let position_data := (dictGet current_positions symbol).getD ⟨0, 0⟩
  let current_value := position_data.value
  let current_qty := position_data.qty
  let symbol_in_target := (dictGet target_positions symbol).isSome
  let target_value := (dictGet target_positions symbol).getD 0
  let difference := target_value - current_value
  let should_close_position :=
    (symbol_in_target = false ∨ target_value = 0) ∧ current_value > 0
  if ¬should_close_position ∧ |difference| < min_order_size then
    none
  else if difference > 0 then
    if current_qty > 0 ∧ current_value > 0 then
      let approx_price := current_value / current_qty
      if approx_price > 0 then
        let buy_qty := pyRound (difference / approx_price) 3
        if buy_qty > 0 then
          some { symbol := symbol, side := .buy, qty := some buy_qty }
        else
          some { symbol := symbol, side := .buy,
                 notional := some (pyRound difference 2) }
      else
        some { symbol := symbol, side := .buy,
               notional := some (pyRound difference 2) }
    else
      some { symbol := symbol, side := .buy,
             notional := some (pyRound difference 2) }
  else
    let sell_qty :=
      if symbol_in_target = false then pyRound current_qty 3
      else if target_value = 0 then pyRound current_qty 3
      else if current_value > 0 then
        min (pyRound (current_qty * (current_value - target_value)
              / current_value) 3) current_qty
      else 0
    if sell_qty > 0 then
      some { symbol := symbol, side := .sell, qty := some sell_qty,
             current_position_value := some current_value }
    else none

/-- The union `all_symbols = set(current_positions.keys()) | set(target_positions.keys())`,
fixed to one admissible iteration order and deduplicated. -/
def all_symbols (current_positions : List (String × PositionData))
    (target_positions : List (String × ℚ)) : List String :=
  (current_positions.map Prod.fst ++ target_positions.map Prod.fst).dedup

/-- Embedding of `calculate_orders`: one pass over the symbol union, collecting the
order (if any) appended for each symbol. -/
def calculate_orders (current_positions : List (String × PositionData))
    (target_positions : List (String × ℚ)) (min_order_size : ℚ) :
    List Order :=
  (all_symbols current_positions target_positions).filterMap
    (orderForSymbol current_positions target_positions min_order_size)

/-- The order-sequencing step of `main`: sell orders first, then buy
orders (`sorted_orders = sell_orders + buy_orders`). -/
def sort_orders (orders : List Order) : List Order :=
  orders.filter (fun o => o.side == Side.sell) ++
    orders.filter (fun o => o.side == Side.buy)

/-- The instructions of a computed order list that carry a given symbol. -/
def ordersFor (orders : List Order) (s : String) : List Order :=
  orders.filter (fun o => o.symbol == s)

/-- The current market value recorded for a symbol (0 when absent),
mirroring `current_positions.get(symbol, {'value': 0.0, 'qty': 0.0})`. -/
def posValue (current_positions : List (String × PositionData))
    (s : String) : ℚ :=
  ((dictGet current_positions s).getD ⟨0, 0⟩).value

/-- The current share quantity recorded for a symbol (0 when absent). -/
def posQty (current_positions : List (String × PositionData))
    (s : String) : ℚ :=
  ((dictGet current_positions s).getD ⟨0, 0⟩).qty

/-- The target dollar value for a symbol (0 when absent), mirroring
`target_positions.get(symbol, 0.0)`. -/
def targetValue (target_positions : List (String × ℚ)) (s : String) : ℚ :=
  (dictGet target_positions s).getD 0

/-- The value `x` has at most `d` decimal places: it is an integer multiple of
`10 ^ (-d)`. -/
def decimalsAtMost (d : ℕ) (x : ℚ) : Prop :=
  ∃ z : ℤ, x = (z : ℚ) / 10 ^ d

/-! ### Evaluation lemmas for rounding -/

lemma roundHalfEven_eq_of_lt {x : ℚ} {n : ℤ} (h1 : (n : ℚ) ≤ x)
    (h2 : x - n < 1 / 2) : roundHalfEven x = n := by
  have hx : ⌊x⌋ = n := by
    rw [Int.floor_eq_iff]
    refine ⟨h1, ?_⟩
    linarith
  unfold roundHalfEven
  rw [hx, if_pos h2]

lemma roundHalfEven_eq_of_gt {x : ℚ} {n : ℤ} (h1 : (n : ℚ) - 1 / 2 < x)
    (h2 : x < n) : roundHalfEven x = n := by
  have hx : ⌊x⌋ = n - 1 := by
    rw [Int.floor_eq_iff]
    push_cast
    constructor <;> linarith
  have hc1 : ¬(x - (((n - 1 : ℤ) : ℚ)) < 1 / 2) := by push_cast; linarith
  have hc2 : (1 / 2 : ℚ) < x - ((n - 1 : ℤ) : ℚ) := by push_cast; linarith
  unfold roundHalfEven
  rw [hx, if_neg hc1, if_pos hc2, sub_add_cancel]

lemma pyRound_eq {x : ℚ} {d : ℕ} {n : ℤ} (h : roundHalfEven (x * 10 ^ d) = n) :
    pyRound x d = (n : ℚ) / 10 ^ d := by
  unfold pyRound
  rw [h]

/-- The rounding `roundHalfEven` never overshoots by more than half a unit. -/
lemma roundHalfEven_le (x : ℚ) : (roundHalfEven x : ℚ) ≤ x + 1 / 2 := by
  have hfl : (⌊x⌋ : ℚ) ≤ x := Int.floor_le x
  unfold roundHalfEven
  split_ifs with h1 h2 h3
  · linarith
  · push_cast
    linarith
  · linarith
  · push_cast
    have : x - ⌊x⌋ = 1 / 2 := le_antisymm (not_lt.mp h2) (not_lt.mp h1)
    linarith

/-- Rounding `pyRound x d` never overshoots `x` by more than half of `10 ^ (-d)`. -/
lemma pyRound_le (x : ℚ) (d : ℕ) :
    pyRound x d ≤ x + 1 / (2 * 10 ^ d) := by
  have hp : (0 : ℚ) < 10 ^ d := by positivity
  have h := roundHalfEven_le (x * 10 ^ d)
  unfold pyRound
  rw [div_le_iff₀ hp]
  calc (roundHalfEven (x * 10 ^ d) : ℚ) ≤ x * 10 ^ d + 1 / 2 := h
    _ = (x + 1 / (2 * 10 ^ d)) * 10 ^ d := by field_simp; ring

/-- Every value of `pyRound x d` has at most `d` decimal places. -/
lemma decimalsAtMost_pyRound (x : ℚ) (d : ℕ) : decimalsAtMost d (pyRound x d) :=
  ⟨roundHalfEven (x * 10 ^ d), rfl⟩

example : pyRound (1.85175 : ℚ) 3 = 1.852 := by
  rw [pyRound_eq (n := 1852) (roundHalfEven_eq_of_gt (by norm_num) (by norm_num))]
  norm_num

example : pyRound (0.0001 : ℚ) 3 = 0 := by
  rw [pyRound_eq (n := 0) (roundHalfEven_eq_of_lt (by norm_num) (by norm_num))]
  norm_num

example : pyRound (4 : ℚ) 3 = 4 := by
  rw [pyRound_eq (n := 4000) (roundHalfEven_eq_of_lt (by norm_num) (by norm_num))]
  norm_num

/-! ### Association-list lemmas -/

lemma mem_keys_of_dictGet {α : Type} {m : List (String × α)} {s : String}
    {v : α} (h : dictGet m s = some v) : s ∈ m.map Prod.fst := by
  induction m with
  | nil => simp [dictGet] at h
  | cons p rest ih =>
    rw [dictGet] at h
    by_cases hp : p.1 = s
    · simp [hp]
    · rw [if_neg hp] at h
      simp [ih h]

lemma dictGet_eq_none_of_not_mem {α : Type} {m : List (String × α)}
    {s : String} (h : s ∉ m.map Prod.fst) : dictGet m s = none := by
  induction m with
  | nil => rfl
  | cons p rest ih =>
    obtain ⟨k, v⟩ := p
    simp only [List.map_cons, List.mem_cons, not_or] at h
    rw [dictGet, if_neg (fun he => h.1 he.symm)]
    exact ih h.2

lemma isSome_dictGet_iff_mem {α : Type} {m : List (String × α)} {s : String} :
    (dictGet m s).isSome ↔ s ∈ m.map Prod.fst := by
  induction m with
  | nil => simp [dictGet]
  | cons p rest ih =>
    obtain ⟨k, v⟩ := p
    rw [dictGet]
    by_cases hk : k = s
    · subst hk
      simp
    · rw [if_neg hk]
      simp only [List.map_cons, List.mem_cons]
      rw [ih]
      constructor
      · exact Or.inr
      · rintro (he | hm)
        · exact absurd he.symm hk
        · exact hm

lemma mem_all_symbols {c : List (String × PositionData)}
    {t : List (String × ℚ)} {s : String} :
    s ∈ all_symbols c t ↔ s ∈ c.map Prod.fst ∨ s ∈ t.map Prod.fst := by
  simp [all_symbols]

/-! ### Branch characterizations of `orderForSymbol` -/

/-- Dead-band skip: not closing and the difference is below the minimum
order size, so the loop body emits nothing. -/
lemma orderForSymbol_skip (c : List (String × PositionData))
    (t : List (String × ℚ)) (m : ℚ) (s : String)
    (hnc : ¬((((dictGet t s).isSome = false) ∨ targetValue t s = 0) ∧
      0 < posValue c s))
    (hsmall : |targetValue t s - posValue c s| < m) :
    orderForSymbol c t m s = none := by
  simp only [orderForSymbol]
  rw [if_pos]
  exact ⟨hnc, hsmall⟩

/-- The loop body, written out with the named accessor functions; equal to
`orderForSymbol` by unfolding definitions. -/
lemma orderForSymbol_eq (c : List (String × PositionData))
    (t : List (String × ℚ)) (m : ℚ) (s : String) :
    orderForSymbol c t m s =
      (if ¬((((dictGet t s).isSome = false) ∨ targetValue t s = 0) ∧
            0 < posValue c s) ∧
          |targetValue t s - posValue c s| < m then
        none
      else if 0 < targetValue t s - posValue c s then
        if 0 < posQty c s ∧ 0 < posValue c s then
          if 0 < posValue c s / posQty c s then
            if 0 < pyRound ((targetValue t s - posValue c s)
                / (posValue c s / posQty c s)) 3 then
              some { symbol := s, side := .buy,
                     qty := some (pyRound ((targetValue t s - posValue c s)
                       / (posValue c s / posQty c s)) 3) }
            else
              some { symbol := s, side := .buy,
                     notional := some (pyRound (targetValue t s - posValue c s) 2) }
          else
            some { symbol := s, side := .buy,
                   notional := some (pyRound (targetValue t s - posValue c s) 2) }
        else
          some { symbol := s, side := .buy,
                 notional := some (pyRound (targetValue t s - posValue c s) 2) }
      else
        if 0 < (if (dictGet t s).isSome = false then pyRound (posQty c s) 3
                else if targetValue t s = 0 then pyRound (posQty c s) 3
                else if 0 < posValue c s then
                  min (pyRound (posQty c s * (posValue c s - targetValue t s)
                    / posValue c s) 3) (posQty c s)
                else 0) then
          some { symbol := s, side := .sell,
                 qty := some (if (dictGet t s).isSome = false then
                    pyRound (posQty c s) 3
                  else if targetValue t s = 0 then pyRound (posQty c s) 3
                  else if 0 < posValue c s then
                    min (pyRound (posQty c s * (posValue c s - targetValue t s)
                      / posValue c s) 3) (posQty c s)
                  else 0),
                 current_position_value := some (posValue c s) }
        else none) := rfl

/-- Full-close: target value (defaulted) is zero and the current value is
positive, so the body reaches the full-close sell with
`sell_qty = round(current_qty, 3)`, emitted only when positive. -/
lemma orderForSymbol_close (c : List (String × PositionData))
    (t : List (String × ℚ)) (m : ℚ) (s : String)
    (htv : targetValue t s = 0) (hcv : 0 < posValue c s) :
    orderForSymbol c t m s =
      if 0 < pyRound (posQty c s) 3 then
        some { symbol := s, side := .sell, qty := some (pyRound (posQty c s) 3),
               current_position_value := some (posValue c s) }
      else none := by
  rw [orderForSymbol_eq]
  rw [if_neg (fun hcon => hcon.1 ⟨Or.inr htv, hcv⟩)]
  rw [if_neg (by rw [htv]; simp only [zero_sub, not_lt]; linarith)]
  by_cases hst : (dictGet t s).isSome = false
  · rw [if_pos hst]
  · rw [if_neg hst, if_pos htv]

/-- Buy with inferred price: positive difference above the dead band, an
existing position with positive quantity and value, and a positive rounded
quantity yield a quantity-denominated buy order. -/
lemma orderForSymbol_buy_qty (c : List (String × PositionData))
    (t : List (String × ℚ)) (m : ℚ) (s : String)
    (hd : 0 < targetValue t s - posValue c s)
    (hm : m ≤ targetValue t s - posValue c s)
    (hq : 0 < posQty c s) (hv : 0 < posValue c s)
    (hbq : 0 < pyRound ((targetValue t s - posValue c s)
      / (posValue c s / posQty c s)) 3) :
    orderForSymbol c t m s =
      some { symbol := s, side := .buy,
             qty := some (pyRound ((targetValue t s - posValue c s)
               / (posValue c s / posQty c s)) 3) } := by
  have hskip : ¬(¬((((dictGet t s).isSome = false) ∨ targetValue t s = 0) ∧
      0 < posValue c s) ∧ |targetValue t s - posValue c s| < m) := by
    rintro ⟨-, habs⟩
    rw [abs_of_pos hd] at habs
    linarith
  rw [orderForSymbol_eq, if_neg hskip, if_pos hd, if_pos ⟨hq, hv⟩,
    if_pos (div_pos hv hq), if_pos hbq]

/-- Buy fallback: positive difference above the dead band but no usable
inferred quantity yields a notional-denominated buy order. -/
lemma orderForSymbol_buy_notional (c : List (String × PositionData))
    (t : List (String × ℚ)) (m : ℚ) (s : String)
    (hd : 0 < targetValue t s - posValue c s)
    (hm : m ≤ targetValue t s - posValue c s)
    (hno : ¬(0 < posQty c s ∧ 0 < posValue c s ∧
      0 < pyRound ((targetValue t s - posValue c s)
        / (posValue c s / posQty c s)) 3)) :
    orderForSymbol c t m s =
      some { symbol := s, side := .buy,
             notional := some (pyRound (targetValue t s - posValue c s) 2) } := by
  have hskip : ¬(¬((((dictGet t s).isSome = false) ∨ targetValue t s = 0) ∧
      0 < posValue c s) ∧ |targetValue t s - posValue c s| < m) := by
    rintro ⟨-, habs⟩
    rw [abs_of_pos hd] at habs
    linarith
  rw [orderForSymbol_eq, if_neg hskip, if_pos hd]
  by_cases hqv : 0 < posQty c s ∧ 0 < posValue c s
  · rw [if_pos hqv, if_pos (div_pos hqv.2 hqv.1),
      if_neg (fun hbq => hno ⟨hqv.1, hqv.2, hbq⟩)]
  · rw [if_neg hqv]

/-- Inversion: everything an emitted order can be. -/
lemma orderForSymbol_eq_some {c : List (String × PositionData)}
    {t : List (String × ℚ)} {m : ℚ} {s : String} {o : Order}
    (h : orderForSymbol c t m s = some o) :
    o.symbol = s ∧
    ((o.side = Side.buy ∧ o.notional = none ∧ o.current_position_value = none ∧
        o.qty = some (pyRound ((targetValue t s - posValue c s)
          / (posValue c s / posQty c s)) 3)) ∨
     (o.side = Side.buy ∧ o.qty = none ∧ o.current_position_value = none ∧
        o.notional = some (pyRound (targetValue t s - posValue c s) 2)) ∨
     (o.side = Side.sell ∧ o.notional = none ∧
        o.current_position_value = some (posValue c s) ∧
        ∃ q, o.qty = some q ∧ 0 < q ∧
          (q = pyRound (posQty c s) 3 ∨
           (q = min (pyRound (posQty c s * (posValue c s - targetValue t s)
              / posValue c s) 3) (posQty c s) ∧ 0 < posValue c s)))) := by
  rw [orderForSymbol_eq] at h
  split_ifs at h
  all_goals try (exfalso; linarith)
  all_goals obtain rfl := Option.some.inj h
  all_goals refine ⟨rfl, ?_⟩
  · exact Or.inl ⟨rfl, rfl, rfl, rfl⟩
  · exact Or.inr (Or.inl ⟨rfl, rfl, rfl, rfl⟩)
  · exact Or.inr (Or.inl ⟨rfl, rfl, rfl, rfl⟩)
  · exact Or.inr (Or.inl ⟨rfl, rfl, rfl, rfl⟩)
  · exact Or.inr (Or.inr ⟨rfl, rfl, rfl, _, rfl, by assumption, Or.inl rfl⟩)
  · exact Or.inr (Or.inr ⟨rfl, rfl, rfl, _, rfl, by assumption, Or.inl rfl⟩)
  · exact Or.inr (Or.inr ⟨rfl, rfl, rfl, _, rfl, by assumption,
      Or.inr ⟨rfl, by assumption⟩⟩)

/-- Every order the loop body emits for `s` carries symbol `s`. -/
lemma orderForSymbol_symbol {c : List (String × PositionData)}
    {t : List (String × ℚ)} {m : ℚ} {s : String} {o : Order}
    (h : orderForSymbol c t m s = some o) : o.symbol = s :=
  (orderForSymbol_eq_some h).1

lemma nodup_all_symbols (c : List (String × PositionData))
    (t : List (String × ℚ)) : (all_symbols c t).Nodup :=
  List.nodup_dedup _

lemma filter_filterMap_symbol (f : String → Option Order)
    (hf : ∀ s o, f s = some o → o.symbol = s) (l : List String)
    (hl : l.Nodup) (s : String) :
    (l.filterMap f).filter (fun o => o.symbol == s) =
      if s ∈ l then (f s).toList else [] := by
  induction l with
  | nil => simp
  | cons x xs ih =>
    rw [List.nodup_cons] at hl
    by_cases hsx : s = x
    · subst hsx
      rw [if_pos (List.mem_cons_self s xs)]
      cases hfx : f s with
      | none =>
          rw [List.filterMap_cons_none hfx, ih hl.2, if_neg hl.1]
          rfl
      | some o =>
          have ho := hf s o hfx
          rw [List.filterMap_cons_some hfx]
          rw [List.filter_cons_of_pos, ih hl.2, if_neg hl.1]
          all_goals first
            | rfl
            | simp [ho]
    · have hiff : (if s ∈ x :: xs then (f s).toList else []) =
          (if s ∈ xs then (f s).toList else []) :=
        if_congr (by simp [List.mem_cons, fun h => hsx h]) rfl rfl
      rw [hiff]
      cases hfx : f x with
      | none => rw [List.filterMap_cons_none hfx, ih hl.2]
      | some o =>
          have ho := hf x o hfx
          have hxs' : ¬(x = s) := fun he => hsx he.symm
          rw [List.filterMap_cons_some hfx]
          rw [List.filter_cons_of_neg, ih hl.2]
          all_goals first
            | rfl
            | simp [ho, hxs']

/-- The instructions `calculate_orders` emits for one symbol are exactly
what the loop body produces for it (when the symbol is in the union). -/
lemma ordersFor_calculate_orders (c : List (String × PositionData))
    (t : List (String × ℚ)) (m : ℚ) (s : String) :
    ordersFor (calculate_orders c t m) s =
      if s ∈ all_symbols c t then (orderForSymbol c t m s).toList else [] :=
  filter_filterMap_symbol _ (fun _ _ h => orderForSymbol_symbol h) _
    (nodup_all_symbols c t) s

lemma mem_calculate_orders {c : List (String × PositionData)}
    {t : List (String × ℚ)} {m : ℚ} {o : Order}
    (h : o ∈ calculate_orders c t m) :
    ∃ s ∈ all_symbols c t, orderForSymbol c t m s = some o := by
  simpa [calculate_orders] using List.mem_filterMap.mp h

lemma pairwise_symbol_filterMap (f : String → Option Order)
    (hf : ∀ s o, f s = some o → o.symbol = s) (l : List String)
    (hl : l.Nodup) :
    (l.filterMap f).Pairwise (fun a b => a.symbol ≠ b.symbol) := by
  induction l with
  | nil => simp
  | cons x xs ih =>
    rw [List.nodup_cons] at hl
    cases hfx : f x with
    | none =>
        rw [List.filterMap_cons_none hfx]
        exact ih hl.2
    | some o =>
        rw [List.filterMap_cons_some hfx]
        refine List.Pairwise.cons ?_ (ih hl.2)
        intro b hb
        obtain ⟨s', hs', hfs'⟩ := List.mem_filterMap.mp hb
        rw [hf x o hfx, hf s' b hfs']
        exact fun he => hl.1 (he ▸ hs')

/-! ### Aggregation lemmas for `get_current_positions` -/

lemma dictGet_append_of_some {α : Type} {l1 : List (String × α)} {s : String}
    {v : α} (h : dictGet l1 s = some v) (l2 : List (String × α)) :
    dictGet (l1 ++ l2) s = some v := by
  induction l1 with
  | nil => simp [dictGet] at h
  | cons p rest ih =>
    obtain ⟨a, b⟩ := p
    rw [dictGet] at h
    rw [List.cons_append, dictGet]
    by_cases ha : a = s
    · rwa [if_pos ha] at h ⊢
    · rw [if_neg ha] at h ⊢
      exact ih h

lemma dictGet_append_of_none {α : Type} {l1 : List (String × α)} {s : String}
    (h : dictGet l1 s = none) (l2 : List (String × α)) :
    dictGet (l1 ++ l2) s = dictGet l2 s := by
  induction l1 with
  | nil => rfl
  | cons p rest ih =>
    obtain ⟨a, b⟩ := p
    rw [dictGet] at h
    rw [List.cons_append, dictGet]
    by_cases ha : a = s
    · rw [if_pos ha] at h
      exact absurd h (by simp)
    · rw [if_neg ha] at h ⊢
      exact ih h

lemma dictGet_map_update (l : List (String × PositionData)) (ns k : String)
    (mv q : ℚ) :
    dictGet (l.map (fun p =>
        if p.1 = ns then (p.1, ⟨p.2.value + mv, p.2.qty + q⟩) else p)) k =
      if k = ns then
        (dictGet l k).map (fun d => ⟨d.value + mv, d.qty + q⟩)
      else dictGet l k := by
  induction l with
  | nil =>
      by_cases hk : k = ns <;> simp [dictGet, hk]
  | cons p rest ih =>
    obtain ⟨a, b⟩ := p
    rw [List.map_cons]
    dsimp only
    by_cases han : a = ns
    · rw [if_pos han]
      by_cases hak : a = k
      · have hkn : k = ns := hak ▸ han
        simp only [dictGet, if_pos hak, if_pos hkn]
        rfl
      · simp only [dictGet, if_neg hak]
        rw [ih]
    · rw [if_neg han]
      by_cases hak : a = k
      · have hkn : ¬k = ns := fun hk => han (hak.trans hk)
        simp only [dictGet, if_pos hak, if_neg hkn]
      · simp only [dictGet, if_neg hak]
        rw [ih]

/-- One `gcpStep` adds the raw position's market value to the entry of its
normalized symbol and leaves every other key unchanged. -/
lemma posValue_gcpStep (acc : List (String × PositionData))
    (pos : RawPosition) (k : String) :
    posValue (gcpStep acc pos) k =
      posValue acc k +
        (if normalize_symbol pos.symbol = k then pos.market_value else 0) := by
  unfold posValue
  cases hd : dictGet acc (normalize_symbol pos.symbol) with
  | some d =>
      simp only [gcpStep, hd]
      rw [dictGet_map_update]
      by_cases hk : k = normalize_symbol pos.symbol
      · rw [if_pos hk, if_pos hk.symm, hk, hd]
        simp
      · rw [if_neg hk, if_neg (fun h => hk h.symm), add_zero]
  | none =>
      simp only [gcpStep, hd]
      by_cases hk : k = normalize_symbol pos.symbol
      · subst hk
        rw [dictGet_append_of_none hd, if_pos rfl, hd]
        simp [dictGet]
      · rw [if_neg (fun h => hk h.symm), add_zero]
        cases hacc : dictGet acc k with
        | some v => rw [dictGet_append_of_some hacc]
        | none =>
            have hnk : ¬(normalize_symbol pos.symbol = k) := fun h => hk h.symm
            rw [dictGet_append_of_none hacc]
            simp [dictGet, hnk]

/-- One `gcpStep` adds the raw position's quantity to the entry of its
normalized symbol and leaves every other key unchanged. -/
lemma posQty_gcpStep (acc : List (String × PositionData))
    (pos : RawPosition) (k : String) :
    posQty (gcpStep acc pos) k =
      posQty acc k + (if normalize_symbol pos.symbol = k then pos.qty else 0) := by
  unfold posQty
  cases hd : dictGet acc (normalize_symbol pos.symbol) with
  | some d =>
      simp only [gcpStep, hd]
      rw [dictGet_map_update]
      by_cases hk : k = normalize_symbol pos.symbol
      · rw [if_pos hk, if_pos hk.symm, hk, hd]
        simp
      · rw [if_neg hk, if_neg (fun h => hk h.symm), add_zero]
  | none =>
      simp only [gcpStep, hd]
      by_cases hk : k = normalize_symbol pos.symbol
      · subst hk
        rw [dictGet_append_of_none hd, if_pos rfl, hd]
        simp [dictGet]
      · rw [if_neg (fun h => hk h.symm), add_zero]
        cases hacc : dictGet acc k with
        | some v => rw [dictGet_append_of_some hacc]
        | none =>
            have hnk : ¬(normalize_symbol pos.symbol = k) := fun h => hk h.symm
            rw [dictGet_append_of_none hacc]
            simp [dictGet, hnk]

/-- Folding `gcpStep` accumulates, per key, the sums of contributing raw
values and quantities. -/
lemma foldl_gcpStep_sums (ps : List RawPosition) :
    ∀ (acc : List (String × PositionData)) (k : String),
      posValue (ps.foldl gcpStep acc) k =
          posValue acc k +
            ((ps.filter (fun p => normalize_symbol p.symbol == k)).map
              RawPosition.market_value).sum ∧
      posQty (ps.foldl gcpStep acc) k =
          posQty acc k +
            ((ps.filter (fun p => normalize_symbol p.symbol == k)).map
              RawPosition.qty).sum := by
  induction ps with
  | nil => simp
  | cons p rest ih =>
    intro acc k
    rw [List.foldl_cons]
    obtain ⟨ihv, ihq⟩ := ih (gcpStep acc p) k
    rw [ihv, ihq, posValue_gcpStep, posQty_gcpStep]
    by_cases hp : normalize_symbol p.symbol = k
    · rw [if_pos hp, if_pos hp,
        List.filter_cons_of_pos (by simp [hp])]
      simp only [List.map_cons, List.sum_cons]
      constructor <;> ring
    · rw [if_neg hp, if_neg hp,
        List.filter_cons_of_neg (by simp [hp])]
      constructor <;> ring

/-! ### Lemmas for `calculate_target_positions` -/

lemma dictGet_dictSet {α : Type} (m : List (String × α)) (k : String)
    (v : α) (k' : String) :
    dictGet (dictSet m k v) k' = if k = k' then some v else dictGet m k' := by
  induction m with
  | nil => simp [dictSet, dictGet]
  | cons p rest ih =>
    obtain ⟨a, b⟩ := p
    rw [dictSet]
    by_cases hak : a = k
    · rw [if_pos hak]
      by_cases hk : k = k'
      · rw [if_pos hk, dictGet, if_pos (hak.trans hk)]
      · rw [if_neg hk, dictGet, if_neg (fun h => hk (hak.symm.trans h)),
          dictGet, if_neg (fun h => hk (hak.symm.trans h))]
    · rw [if_neg hak]
      by_cases hak' : a = k'
      · have hkk' : ¬(k = k') := fun h => hak (hak'.trans h.symm)
        rw [dictGet, if_pos hak', if_neg hkk', dictGet, if_pos hak']
      · rw [dictGet, if_neg hak', ih, dictGet, if_neg hak']

/-- Later loop iterations whose remapped symbol differs from `K` do not
change the entry at `K`. -/
lemma dictGet_foldl_ctpStep_of_ne (e : ℚ) (cm : List (String × String))
    (K : String) :
    ∀ (ps : List (String × ℚ)) (acc : List (String × ℚ)),
      (∀ ap ∈ ps, remapSymbol cm ap.1 ≠ K) →
      dictGet (ps.foldl (ctpStep e cm) acc) K = dictGet acc K := by
  intro ps
  induction ps with
  | nil => intro acc _; rfl
  | cons a rest ih =>
    intro acc hne
    rw [List.foldl_cons, ih _ (fun ap hap => hne ap (List.mem_cons_of_mem a hap))]
    rw [ctpStep, dictGet_dictSet,
      if_neg (hne a (List.mem_cons_self a rest))]

/-- When the remapped symbols of the allocation entries are pairwise
distinct, every entry ends up in the result with its own target value. -/
lemma foldl_ctpStep_lookup (e : ℚ) (cm : List (String × String)) :
    ∀ (ps : List (String × ℚ)) (acc : List (String × ℚ)),
      (ps.map (fun ap => remapSymbol cm ap.1)).Nodup →
      ∀ ap ∈ ps,
        dictGet (ps.foldl (ctpStep e cm) acc) (remapSymbol cm ap.1) =
          some ((ap.2 / 100) * e) := by
  intro ps
  induction ps with
  | nil => intro acc _ ap hap; exact absurd hap (List.not_mem_nil ap)
  | cons a rest ih =>
    intro acc hnd ap hap
    rw [List.map_cons, List.nodup_cons] at hnd
    rw [List.foldl_cons]
    rcases List.mem_cons.mp hap with rfl | hmem
    · rw [dictGet_foldl_ctpStep_of_ne e cm _ rest _
        (fun bp hbp he => hnd.1 (by
          rw [← he]
          exact List.mem_map_of_mem _ hbp))]
      rw [ctpStep, dictGet_dictSet, if_pos rfl]
    · exact ih _ hnd.2 ap hmem

/-! ### Decimal-place characterization -/

lemma decimalsAtMost_iff_mul_den_one (d : ℕ) (x : ℚ) :
    decimalsAtMost d x ↔ (x * 10 ^ d).den = 1 := by
  have h10 : ((10 : ℚ) ^ d) ≠ 0 := by positivity
  constructor
  · rintro ⟨z, rfl⟩
    rw [div_mul_cancel₀ _ h10]
    exact Rat.den_intCast z
  · intro h
    refine ⟨(x * 10 ^ d).num, ?_⟩
    have h2 : ((x * 10 ^ d).num : ℚ) = x * 10 ^ d := by
      conv_rhs => rw [← Rat.num_div_den (x * 10 ^ d)]
      rw [h]
      norm_num
    rw [eq_div_iff h10]
    exact h2.symm

/-! ### Claim C1 -/

/-- Claim C1 (amended): if a symbol is present in the current positions
with positive current value and its (defaulted) target value is zero
(covering both "absent from target" and "target value zero"), and the
current quantity rounded to 3 decimals is positive, then `calculate_orders`
emits exactly one instruction for that symbol: a sell of
`round(current_qty, 3)` shares, for any `min_order_size`. -/
theorem c1_full_close_sell (c : List (String × PositionData))
    (t : List (String × ℚ)) (m : ℚ) (s : String)
    (hcur : s ∈ c.map Prod.fst)
    (hcv : 0 < posValue c s)
    (htv : targetValue t s = 0)
    (hq : 0 < pyRound (posQty c s) 3) :
    ordersFor (calculate_orders c t m) s =
      [{ symbol := s, side := .sell, qty := some (pyRound (posQty c s) 3),
         current_position_value := some (posValue c s) }] := by
  rw [ordersFor_calculate_orders,
    if_pos (mem_all_symbols.mpr (Or.inl hcur)),
    orderForSymbol_close c t m s htv hcv, if_pos hq]
  rfl

/-- Witness for C1: spec Example 2 — `current = {TSLA: {value 800, qty 4}}`,
empty target, `min_order_size = 10` produces the single full-close sell of
4 shares. -/
theorem c1_full_close_sell_witness :
    ordersFor (calculate_orders [("TSLA", ⟨800, 4⟩)] [] 10) "TSLA" =
      [{ symbol := "TSLA", side := .sell, qty := some 4,
         current_position_value := some 800 }] := by
  have h4 : pyRound (4 : ℚ) 3 = 4 := by
    rw [pyRound_eq (n := 4000) (roundHalfEven_eq_of_lt (by norm_num) (by norm_num))]
    norm_num
  have hqty : posQty [("TSLA", ⟨800, 4⟩)] "TSLA" = 4 := by
    simp [posQty, dictGet]
  have h := c1_full_close_sell [("TSLA", ⟨800, 4⟩)] [] 10 "TSLA"
    (by simp)
    (by simp [posValue, dictGet])
    rfl
    (by
      rw [hqty, h4]
      norm_num)
  simpa [posValue, hqty, h4] using h

/-- Counterexample to C1 as stated: the symbol `A` is present with
positive current value (1 dollar) and is absent from the target, yet the
engine emits no instruction at all, because its quantity 0.0001 rounds to
0 at 3 decimals — the claim demands exactly one sell instruction. -/
theorem c1_full_close_sell_cex :
    (0 : ℚ) < posValue [("A", ⟨1, 1/10000⟩)] "A" ∧
    dictGet ([] : List (String × ℚ)) "A" = none ∧
    calculate_orders [("A", ⟨1, 1/10000⟩)] [] 10 = [] := by
  have h0 : pyRound ((1 : ℚ)/10000) 3 = 0 := by
    rw [pyRound_eq (n := 0) (roundHalfEven_eq_of_lt (by norm_num) (by norm_num))]
    norm_num
  refine ⟨by simp [posValue, dictGet], rfl, ?_⟩
  have hqty : posQty [("A", ⟨1, 1/10000⟩)] "A" = 1/10000 := by
    simp [posQty, dictGet]
  have horder : orderForSymbol [("A", ⟨1, 1/10000⟩)] [] 10 "A" = none := by
    rw [orderForSymbol_close [("A", ⟨1, 1/10000⟩)] [] 10 "A" (by rfl)
      (by simp [posValue, dictGet])]
    rw [if_neg]
    rw [hqty, h0]
    norm_num
  have hsyms : all_symbols [("A", (⟨1, 1/10000⟩ : PositionData))] [] = ["A"] := by
    simp [all_symbols]
  rw [calculate_orders, hsyms, List.filterMap_cons_none horder]
  rfl

/-! ### Claim C2 -/

/-- Claim C2: for any symbol that is not being closed
(¬((absent-from-target ∨ target_value = 0) ∧ current_value > 0)) and whose
absolute difference is below `min_order_size`, `calculate_orders` emits no
instruction for that symbol. -/
theorem c2_dead_band_skip (c : List (String × PositionData))
    (t : List (String × ℚ)) (m : ℚ) (s : String)
    (hnc : ¬((((dictGet t s).isSome = false) ∨ targetValue t s = 0) ∧
      0 < posValue c s))
    (hsmall : |targetValue t s - posValue c s| < m) :
    ordersFor (calculate_orders c t m) s = [] := by
  rw [ordersFor_calculate_orders]
  by_cases hmem : s ∈ all_symbols c t
  · rw [if_pos hmem, orderForSymbol_skip c t m s hnc hsmall]
    rfl
  · rw [if_neg hmem]

/-- Witness for C2: AAPL held at 1000 dollars with target 1005 and
`min_order_size = 10`: the 5-dollar drift is inside the dead band, so no
instruction is emitted. -/
theorem c2_dead_band_skip_witness :
    ordersFor (calculate_orders [("AAPL", ⟨1000, 5⟩)] [("AAPL", 1005)] 10)
      "AAPL" = [] := by
  have h1 : targetValue [("AAPL", (1005 : ℚ))] "AAPL" = 1005 := by
    simp [targetValue, dictGet]
  have h2 : posValue [("AAPL", ⟨1000, 5⟩)] "AAPL" = 1000 := by
    simp [posValue, dictGet]
  refine c2_dead_band_skip _ _ _ _ ?_ ?_
  · rintro ⟨habs | h0, -⟩
    · simp [dictGet] at habs
    · rw [h1] at h0
      norm_num at h0
  · rw [h1, h2, show (1005 : ℚ) - 1000 = 5 from by norm_num,
      abs_of_pos (by norm_num : (0 : ℚ) < 5)]
    norm_num

/-! ### Claim C3 -/

/-- Claim C3: no-oversell — every emitted sell instruction's quantity is
at most the symbol's current quantity plus the 3-decimal rounding
half-step 1/2000 (the "floating tolerance": a full close sells
`round(current_qty, 3)`, which can exceed `current_qty` by at most
0.0005; partial sells are clamped to `current_qty` exactly). -/
theorem c3_no_oversell (c : List (String × PositionData))
    (t : List (String × ℚ)) (m : ℚ) :
    ∀ o ∈ calculate_orders c t m, o.side = Side.sell →
      ∀ q, o.qty = some q → q ≤ posQty c o.symbol + 1 / 2000 := by
  intro o ho hside q hq
  obtain ⟨s, _, hord⟩ := mem_calculate_orders ho
  obtain ⟨hsym, hcases⟩ := orderForSymbol_eq_some hord
  subst hsym
  rcases hcases with ⟨hb, -, -, -⟩ | ⟨hb, -, -, -⟩ |
    ⟨-, -, -, q', hq', -, hcase⟩
  · rw [hb] at hside
    exact absurd hside (by simp)
  · rw [hb] at hside
    exact absurd hside (by simp)
  · obtain rfl := Option.some.inj (hq.symm.trans hq')
    rcases hcase with hc1 | ⟨hc2, -⟩
    · rw [hc1]
      have h := pyRound_le (posQty c o.symbol) 3
      norm_num at h
      norm_num
      exact h
    · rw [hc2]
      have h := min_le_right
        (pyRound (posQty c o.symbol * (posValue c o.symbol -
          targetValue t o.symbol) / posValue c o.symbol) 3)
        (posQty c o.symbol)
      linarith

/-- Witness for C3: on the TSLA full-close example the emitted sell
quantity 4 respects the bound. -/
theorem c3_no_oversell_witness :
    (4 : ℚ) ≤ posQty [("TSLA", ⟨800, 4⟩)] "TSLA" + 1 / 2000 := by
  have hqty : posQty [("TSLA", ⟨800, 4⟩)] "TSLA" = 4 := by
    simp [posQty, dictGet]
  have hval : posValue [("TSLA", ⟨800, 4⟩)] "TSLA" = 800 := by
    simp [posValue, dictGet]
  have h4 : pyRound (4 : ℚ) 3 = 4 := by
    rw [pyRound_eq (n := 4000) (roundHalfEven_eq_of_lt (by norm_num) (by norm_num))]
    norm_num
  have horder : orderForSymbol [("TSLA", ⟨800, 4⟩)] [] 10 "TSLA" =
      some { symbol := "TSLA", side := .sell, qty := some 4,
             current_position_value := some 800 } := by
    rw [orderForSymbol_close [("TSLA", ⟨800, 4⟩)] [] 10 "TSLA" rfl
      (by rw [hval]; norm_num)]
    rw [hqty, h4, hval, if_pos (by norm_num : (0 : ℚ) < 4)]
  have hlist : calculate_orders [("TSLA", ⟨800, 4⟩)] [] 10 =
      [{ symbol := "TSLA", side := .sell, qty := some 4,
         current_position_value := some 800 }] := by
    rw [calculate_orders,
      show all_symbols [("TSLA", (⟨800, 4⟩ : PositionData))] [] = ["TSLA"]
        from by simp [all_symbols],
      List.filterMap_cons_some horder]
    rfl
  exact c3_no_oversell [("TSLA", ⟨800, 4⟩)] [] 10
    { symbol := "TSLA", side := .sell, qty := some 4,
      current_position_value := some 800 }
    (by rw [hlist]; exact List.mem_singleton.mpr rfl) rfl 4 rfl

/-! ### Claim C4 -/

/-- Claim C4: buy-side selection.  For a symbol whose difference
`target_value - current_value` is positive and at least `min_order_size`
(the dead band cannot be bypassed by `should_close` here, which forces a
negative difference): if `current_qty > 0` and `current_value > 0` (which
makes `approx_price = current_value / current_qty` positive) and the
rounded quantity is positive, exactly one buy instruction carrying that
quantity and no notional is emitted; in every other case exactly one buy
instruction carrying `notional = round(difference, 2)` and no quantity is
emitted. -/
theorem c4_buy_selection (c : List (String × PositionData))
    (t : List (String × ℚ)) (m : ℚ) (s : String)
    (hd : 0 < targetValue t s - posValue c s)
    (hm : m ≤ targetValue t s - posValue c s) :
    (0 < posQty c s → 0 < posValue c s →
      0 < pyRound ((targetValue t s - posValue c s)
        / (posValue c s / posQty c s)) 3 →
      ordersFor (calculate_orders c t m) s =
        [{ symbol := s, side := .buy,
           qty := some (pyRound ((targetValue t s - posValue c s)
             / (posValue c s / posQty c s)) 3) }]) ∧
    (¬(0 < posQty c s ∧ 0 < posValue c s ∧
        0 < pyRound ((targetValue t s - posValue c s)
          / (posValue c s / posQty c s)) 3) →
      ordersFor (calculate_orders c t m) s =
        [{ symbol := s, side := .buy,
           notional := some (pyRound (targetValue t s - posValue c s) 2) }]) := by
  have hs : s ∈ all_symbols c t := by
    by_contra habs
    rw [mem_all_symbols] at habs
    push_neg at habs
    have h1 : posValue c s = 0 := by
      rw [posValue, dictGet_eq_none_of_not_mem habs.1]
      rfl
    have h2 : targetValue t s = 0 := by
      rw [targetValue, dictGet_eq_none_of_not_mem habs.2]
      rfl
    rw [h1, h2] at hd
    norm_num at hd
  constructor
  · intro hq hv hbq
    rw [ordersFor_calculate_orders, if_pos hs,
      orderForSymbol_buy_qty c t m s hd hm hq hv hbq]
    rfl
  · intro hno
    rw [ordersFor_calculate_orders, if_pos hs,
      orderForSymbol_buy_notional c t m s hd hm hno]
    rfl

/-- Witness for C4: spec Example 1 — AAPL held at 1000 dollars (5 shares)
with target 1500 and `min_order_size = 10` yields one buy of
`round(500 / 200, 3) = 2.5` shares. -/
theorem c4_buy_selection_witness :
    ordersFor (calculate_orders [("AAPL", ⟨1000, 5⟩)] [("AAPL", 1500)] 10)
      "AAPL" = [{ symbol := "AAPL", side := .buy, qty := some (5/2) }] := by
  have h1 : targetValue [("AAPL", (1500 : ℚ))] "AAPL" = 1500 := by
    simp [targetValue, dictGet]
  have h2 : posValue [("AAPL", ⟨1000, 5⟩)] "AAPL" = 1000 := by
    simp [posValue, dictGet]
  have h3 : posQty [("AAPL", ⟨1000, 5⟩)] "AAPL" = 5 := by
    simp [posQty, dictGet]
  have hr : pyRound (((1500 : ℚ) - 1000) / (1000 / 5)) 3 = 5/2 := by
    rw [show (((1500 : ℚ) - 1000) / (1000 / 5)) = 5/2 from by norm_num,
      pyRound_eq (n := 2500) (roundHalfEven_eq_of_lt (by norm_num) (by norm_num))]
    norm_num
  have h := (c4_buy_selection [("AAPL", ⟨1000, 5⟩)] [("AAPL", 1500)] 10 "AAPL"
    (by rw [h1, h2]; norm_num) (by rw [h1, h2]; norm_num)).1
    (by rw [h3]; norm_num) (by rw [h2]; norm_num)
    (by rw [h1, h2, h3, hr]; norm_num)
  rw [h1, h2, h3, hr] at h
  exact h

/-! ### Claim C5 -/

/-- Claim C5: idempotence.  If every symbol in the union has its current
value exactly equal to its (defaulted) target value and
`min_order_size > 0`, `calculate_orders` returns the empty list.  (Exact
matching with identical symbol support implies this hypothesis.) -/
theorem c5_idempotence (c : List (String × PositionData))
    (t : List (String × ℚ)) (m : ℚ)
    (hmin : 0 < m)
    (heq : ∀ s ∈ all_symbols c t, posValue c s = targetValue t s) :
    calculate_orders c t m = [] := by
  rw [calculate_orders, List.filterMap_eq_nil_iff]
  intro s hs
  have hcv := heq s hs
  apply orderForSymbol_skip
  · rintro ⟨htv0, hpos⟩
    have htv : targetValue t s = 0 := by
      rcases htv0 with habs | h0
      · rw [targetValue]
        cases hd : dictGet t s with
        | none => rfl
        | some v =>
            rw [hd] at habs
            simp at habs
      · exact h0
    rw [hcv, htv] at hpos
    exact lt_irrefl 0 hpos
  · rw [hcv, sub_self, abs_zero]
    exact hmin

/-- Witness for C5: a portfolio exactly at target (AAPL worth 1000
dollars, target 1000) with positive `min_order_size` produces no orders. -/
theorem c5_idempotence_witness :
    calculate_orders [("AAPL", ⟨1000, 5⟩)] [("AAPL", 1000)] 10 = [] := by
  refine c5_idempotence _ _ _ (by norm_num) ?_
  intro s hs
  simp only [all_symbols, List.map_cons, List.map_nil] at hs
  have : s = "AAPL" := by
    simpa using hs
  subst this
  simp [posValue, targetValue, dictGet]

/-! ### Claim C6 -/

/-- Claim C6: the orchestrator submits `sell_orders + buy_orders`: the
submitted sequence is a permutation of the computed list (nothing added or
dropped) and splits into a prefix of sells followed by a suffix of buys,
so every sell is submitted before any buy. -/
theorem c6_sells_before_buys (orders : List Order) :
    (sort_orders orders).Perm orders ∧
    ∃ l1 l2, sort_orders orders = l1 ++ l2 ∧
      (∀ o ∈ l1, o.side = Side.sell) ∧ (∀ o ∈ l2, o.side = Side.buy) := by
  constructor
  · have hcongr : orders.filter (fun o => o.side == Side.buy) =
        orders.filter (fun o => !(o.side == Side.sell)) :=
      List.filter_congr (fun o _ => by cases o.side <;> rfl)
    rw [sort_orders, hcongr]
    exact List.filter_append_perm _ orders
  · refine ⟨orders.filter (fun o => o.side == Side.sell),
      orders.filter (fun o => o.side == Side.buy), rfl, ?_, ?_⟩
    · intro o ho
      simpa using List.of_mem_filter ho
    · intro o ho
      simpa using List.of_mem_filter ho

/-! ### Claim C7 -/

/-- Claim C7: `get_current_positions` aggregates by normalized symbol —
for every key, the stored value (resp. quantity) is the sum of the
`market_value` (resp. `qty`) of the raw positions whose symbol normalizes
to it (both sides are 0 for keys with no contributing raw position). -/
theorem c7_aggregation (positions : List RawPosition) (k : String) :
    posValue (get_current_positions positions) k =
        ((positions.filter (fun p => normalize_symbol p.symbol == k)).map
          RawPosition.market_value).sum ∧
      posQty (get_current_positions positions) k =
        ((positions.filter (fun p => normalize_symbol p.symbol == k)).map
          RawPosition.qty).sum := by
  obtain ⟨hv, hq⟩ := foldl_gcpStep_sums positions [] k
  constructor
  · rw [get_current_positions, hv]
    simp [posValue, dictGet]
  · rw [get_current_positions, hq]
    simp [posQty, dictGet]

/-! ### Claim C8 -/

/-- Claim C8 (amended): every allocation entry maps its (possibly
crypto-remapped) symbol to `(percentage / 100) * equity` — with non-crypto
tickers passing through unchanged, and no validation of the percentage —
PROVIDED no two entries remap to the same symbol; on a collision the later
entry overwrites the earlier one. -/
theorem c8_target_calculation (allocations : List (String × ℚ))
    (account_equity : ℚ) (crypto_mapping : List (String × String))
    (hnd : (allocations.map (fun ap => remapSymbol crypto_mapping ap.1)).Nodup) :
    (∀ a, dictGet crypto_mapping a = none → remapSymbol crypto_mapping a = a) ∧
    ∀ ap ∈ allocations,
      dictGet (calculate_target_positions allocations account_equity
          crypto_mapping) (remapSymbol crypto_mapping ap.1) =
        some ((ap.2 / 100) * account_equity) := by
  constructor
  · intro a ha
    rw [remapSymbol, ha]
    rfl
  · intro ap hap
    exact foldl_ctpStep_lookup account_equity crypto_mapping allocations []
      hnd ap hap

/-- Witness for C8: allocations `{AAPL: 50, BTC-USD: 10}` with equity 1000
and the crypto table produce `targets[AAPL] = 500` (AAPL passes through
unmapped). -/
theorem c8_target_calculation_witness :
    dictGet (calculate_target_positions [("AAPL", 50), ("BTC-USD", 10)]
      1000 CRYPTO_TICKER_MAPPING) "AAPL" = some 500 := by
  have hra : remapSymbol CRYPTO_TICKER_MAPPING "AAPL" = "AAPL" := by
    simp [remapSymbol, CRYPTO_TICKER_MAPPING, dictGet]
  have hrb : remapSymbol CRYPTO_TICKER_MAPPING "BTC-USD" = "BTC/USD" := by
    simp [remapSymbol, CRYPTO_TICKER_MAPPING, dictGet]
  have h := (c8_target_calculation [("AAPL", 50), ("BTC-USD", 10)] 1000
    CRYPTO_TICKER_MAPPING
    (by
      simp only [List.map_cons, List.map_nil, hra, hrb]
      simp)).2
    ("AAPL", 50) (by simp)
  rw [hra] at h
  rw [show ((50 : ℚ) / 100) * 1000 = 500 from by norm_num] at h
  exact h

/-- Counterexample to C8 as stated: allocations `{BTC-USD: 10, BTC/USD: 20}`
(distinct tickers) both remap to the trading symbol `BTC/USD`; the final
target for `BTC/USD` is 20 dollars of equity 100, not the
`(10 / 100) * 100 = 10` the first entry demands. -/
theorem c8_target_calculation_cex :
    ("BTC-USD", (10 : ℚ)) ∈
        ([("BTC-USD", 10), ("BTC/USD", 20)] : List (String × ℚ)) ∧
    remapSymbol CRYPTO_TICKER_MAPPING "BTC-USD" = "BTC/USD" ∧
    dictGet (calculate_target_positions [("BTC-USD", 10), ("BTC/USD", 20)]
      100 CRYPTO_TICKER_MAPPING) "BTC/USD" = some 20 ∧
    (20 : ℚ) ≠ (10 / 100) * 100 := by
  refine ⟨by simp, by simp [remapSymbol, CRYPTO_TICKER_MAPPING, dictGet], ?_, by norm_num⟩
  have h1 : remapSymbol CRYPTO_TICKER_MAPPING "BTC-USD" = "BTC/USD" := by
    simp [remapSymbol, CRYPTO_TICKER_MAPPING, dictGet]
  have h2 : remapSymbol CRYPTO_TICKER_MAPPING "BTC/USD" = "BTC/USD" := by
    simp [remapSymbol, CRYPTO_TICKER_MAPPING, dictGet]
  rw [calculate_target_positions, List.foldl_cons, List.foldl_cons,
    List.foldl_nil, ctpStep, ctpStep, h1, h2]
  rw [show dictSet ([] : List (String × ℚ)) "BTC/USD" (((10:ℚ) / 100) * 100) =
    [("BTC/USD", ((10:ℚ) / 100) * 100)] from rfl]
  rw [dictSet, if_pos rfl, dictGet, if_pos rfl]
  norm_num

/-! ### Claim C9 -/

/-- Claim C9 (amended): every notional carried by an emitted instruction
has at most 2 decimal places, and every quantity has at most 3 decimal
places EXCEPT that a clamped partial sell carries the symbol's raw
`current_qty` unrounded. -/
theorem c9_rounding (c : List (String × PositionData))
    (t : List (String × ℚ)) (m : ℚ) :
    ∀ o ∈ calculate_orders c t m,
      (∀ n, o.notional = some n → decimalsAtMost 2 n) ∧
      (∀ q, o.qty = some q → decimalsAtMost 3 q ∨ q = posQty c o.symbol) := by
  intro o ho
  obtain ⟨s, _, hord⟩ := mem_calculate_orders ho
  obtain ⟨hsym, hcases⟩ := orderForSymbol_eq_some hord
  subst hsym
  rcases hcases with ⟨-, hn, -, hqty⟩ | ⟨-, hqn, -, hn⟩ |
    ⟨-, hn, -, q', hq', -, hcase⟩
  · refine ⟨?_, ?_⟩
    · intro n hmem
      rw [hn] at hmem
      exact absurd hmem (by simp)
    · intro q hq
      rw [hqty] at hq
      obtain rfl := Option.some.inj hq
      exact Or.inl (decimalsAtMost_pyRound _ _)
  · refine ⟨?_, ?_⟩
    · intro n hmem
      rw [hn] at hmem
      obtain rfl := Option.some.inj hmem
      exact decimalsAtMost_pyRound _ _
    · intro q hq
      rw [hqn] at hq
      exact absurd hq (by simp)
  · refine ⟨?_, ?_⟩
    · intro n hmem
      rw [hn] at hmem
      exact absurd hmem (by simp)
    · intro q hq
      rw [hq'] at hq
      obtain rfl := Option.some.inj hq
      rcases hcase with hc1 | ⟨hc2, -⟩
      · rw [hc1]
        exact Or.inl (decimalsAtMost_pyRound _ _)
      · rcases le_total (pyRound (posQty c o.symbol * (posValue c o.symbol -
          targetValue t o.symbol) / posValue c o.symbol) 3)
          (posQty c o.symbol) with hle | hle
        · rw [hc2, min_eq_left hle]
          exact Or.inl (decimalsAtMost_pyRound _ _)
        · rw [hc2, min_eq_right hle]
          exact Or.inr rfl

/-- Witness for C9: the TSLA full-close sell of 4.0 shares has at most 3
decimal places (and carries no notional). -/
theorem c9_rounding_witness :
    (∀ n, ({ symbol := "TSLA", side := .sell, qty := some 4,
             current_position_value := some 800 } : Order).notional = some n →
      decimalsAtMost 2 n) ∧
    (∀ q, ({ symbol := "TSLA", side := .sell, qty := some 4,
             current_position_value := some 800 } : Order).qty = some q →
      decimalsAtMost 3 q ∨
        q = posQty [("TSLA", ⟨800, 4⟩)] "TSLA") := by
  have hqty : posQty [("TSLA", ⟨800, 4⟩)] "TSLA" = 4 := by
    simp [posQty, dictGet]
  have hval : posValue [("TSLA", ⟨800, 4⟩)] "TSLA" = 800 := by
    simp [posValue, dictGet]
  have h4 : pyRound (4 : ℚ) 3 = 4 := by
    rw [pyRound_eq (n := 4000) (roundHalfEven_eq_of_lt (by norm_num) (by norm_num))]
    norm_num
  have horder : orderForSymbol [("TSLA", ⟨800, 4⟩)] [] 10 "TSLA" =
      some { symbol := "TSLA", side := .sell, qty := some 4,
             current_position_value := some 800 } := by
    rw [orderForSymbol_close [("TSLA", ⟨800, 4⟩)] [] 10 "TSLA" rfl
      (by rw [hval]; norm_num)]
    rw [hqty, h4, hval, if_pos (by norm_num : (0 : ℚ) < 4)]
  have hlist : calculate_orders [("TSLA", ⟨800, 4⟩)] [] 10 =
      [{ symbol := "TSLA", side := .sell, qty := some 4,
         current_position_value := some 800 }] := by
    rw [calculate_orders,
      show all_symbols [("TSLA", (⟨800, 4⟩ : PositionData))] [] = ["TSLA"]
        from by simp [all_symbols],
      List.filterMap_cons_some horder]
    rfl
  exact c9_rounding [("TSLA", ⟨800, 4⟩)] [] 10
    { symbol := "TSLA", side := .sell, qty := some 4,
      current_position_value := some 800 }
    (by rw [hlist]; exact List.mem_singleton.mpr rfl)

/-- Counterexample to C9 as stated: holding 1.2345 shares of `A` worth 100
dollars against a target of −50 dollars, the partial-sell quantity
`round(1.2345 * 150 / 100, 3) = 1.852` gets clamped to the raw holding
1.2345, which has four decimal places. -/
theorem c9_rounding_cex :
    ∃ o ∈ calculate_orders [("A", ⟨100, 12345/10000⟩)] [("A", -50)] 1,
      ∃ q, o.qty = some q ∧ ¬decimalsAtMost 3 q := by
  have h1 : targetValue [("A", (-50 : ℚ))] "A" = -50 := by
    simp [targetValue, dictGet]
  have h2 : posValue [("A", ⟨100, 12345/10000⟩)] "A" = 100 := by
    simp [posValue, dictGet]
  have h3 : posQty [("A", ⟨100, 12345/10000⟩)] "A" = 12345/10000 := by
    simp [posQty, dictGet]
  have hd : dictGet [("A", (-50 : ℚ))] "A" = some (-50) := by
    simp [dictGet]
  have habs : |(-50 : ℚ) - 100| = 150 := by
    rw [show ((-50 : ℚ) - 100) = -(150) from by norm_num, abs_neg,
      abs_of_pos (by norm_num : (0 : ℚ) < 150)]
  have hmin : min (pyRound ((12345/10000 : ℚ) * (100 - -50) / 100) 3)
      ((12345 : ℚ)/10000) = 12345/10000 := by
    rw [show ((12345/10000 : ℚ) * (100 - -50) / 100) = 185175/100000
        from by norm_num,
      pyRound_eq (n := 1852) (roundHalfEven_eq_of_gt (by norm_num) (by norm_num))]
    rw [min_eq_right (by norm_num)]
  have horder : orderForSymbol [("A", ⟨100, 12345/10000⟩)] [("A", -50)] 1 "A" =
      some { symbol := "A", side := .sell, qty := some (12345/10000),
             current_position_value := some 100 } := by
    rw [orderForSymbol_eq, h1, h2, h3, hd]
    rw [if_neg (by
      rintro ⟨-, hcon⟩
      rw [habs] at hcon
      norm_num at hcon)]
    rw [if_neg (by norm_num : ¬(0 : ℚ) < -50 - 100)]
    rw [if_neg (show ¬((some ((-50) : ℚ)).isSome = false) from by simp),
      if_neg (by norm_num : ¬(-50 : ℚ) = 0),
      if_pos (by norm_num : (0 : ℚ) < 100), hmin,
      if_pos (by norm_num : (0 : ℚ) < 12345/10000)]
  have hsyms : all_symbols [("A", (⟨100, 12345/10000⟩ : PositionData))]
      [("A", (-50 : ℚ))] = ["A"] := by
    simp [all_symbols]
  have hlist : calculate_orders [("A", ⟨100, 12345/10000⟩)] [("A", -50)] 1 =
      [{ symbol := "A", side := .sell, qty := some (12345/10000),
         current_position_value := some 100 }] := by
    rw [calculate_orders, hsyms, List.filterMap_cons_some horder]
    rfl
  refine ⟨{ symbol := "A", side := .sell, qty := some (12345/10000),
            current_position_value := some 100 },
    by rw [hlist]; exact List.mem_singleton.mpr rfl,
    12345/10000, rfl, ?_⟩
  rintro ⟨z, hz⟩
  rw [div_eq_div_iff (by norm_num) (by norm_num)] at hz
  have hz' : (12345 : ℤ) * 10 ^ 3 = z * 10000 := by exact_mod_cast hz
  omega

/-! ### Claim C10 -/

/-- Claim C10: `calculate_orders` emits at most one instruction per
symbol — the emitted list's symbols are pairwise distinct. -/
theorem c10_at_most_one_per_symbol (c : List (String × PositionData))
    (t : List (String × ℚ)) (m : ℚ) :
    (calculate_orders c t m).Pairwise (fun a b => a.symbol ≠ b.symbol) :=
  pairwise_symbol_filterMap _ (fun _ _ h => orderForSymbol_symbol h) _
    (nodup_all_symbols c t)
